import Mathlib

/-!
# Project-Parallel: image binarisation, sequential / row-sliced (MPI) / grid (CUDA)

A shallow embedding of `Seq.c`, `mpi.c` and `cudac.c`.

* C `double` arithmetic is IEEE 754 binary64 with round-to-nearest-even after every
  operation (`Double` below), the evaluation mode of SSE2 and of every CUDA host compiler.
  Only non-negative finite values occur; the exponent range is never exhausted.
* The pixel buffer of a surface is byte-addressed memory: `pixels a` is the byte at
  `(Uint8 *)pixels + a`.  The three programs read and write a 32-bit word at
  `y * pitch + x * sizeof(Uint32)` whatever the depth of the surface, and so does the model;
  the host is little-endian.  The surface owns the bytes below `h * pitch`; bytes at larger
  offsets are the memory that follows the buffer.
* A surface has one of the pixel formats the PNG loader of SDL_image produces (3-byte RGB,
  4-byte RGBA, 8-bit indexed with a palette) or another packed layout with 8-bit channels.
* C `int` values are natural numbers; every `int` expression of the programs stays below
  `2^31` as soon as the byte count of the buffer does.
* Library calls (`SDL_Init`, `IMG_Load`, ...) are events of a trace; their results come
  from an environment record.
-/

namespace ProjectParallel

/-! ## IEEE 754 binary64 on the non-negative finite range -/

/-- A non-negative binary64 value, `m / 2 ^ s`. -/
structure Double where
  m : Nat
  s : Nat
deriving Repr

/-- Number of binary digits of `n`, by halving (`fuel` bounds the number of halvings). -/
def bitLengthAux : Nat → Nat → Nat
  | 0, _ => 0
  | fuel + 1, n => if n = 0 then 0 else bitLengthAux fuel (n / 2) + 1

/-- Number of binary digits of `n`. -/
def bitLength (n : Nat) : Nat := bitLengthAux n n

/-- Round the exact value `m / 2 ^ s` to 53 significant bits, ties to even. -/
def Double.round (m s : Nat) : Double :=
  if m < 2 ^ 53 then ⟨m, s⟩
  else
    let k := bitLength m - 53
    let q := m / 2 ^ k
    let rem := m % 2 ^ k
    let half := 2 ^ (k - 1)
    let q1 := if half < rem ∨ (rem = half ∧ q % 2 = 1) then q + 1 else q
    ⟨q1 * 2 ^ (k - s), s - k⟩

/-- Binary64 product: the exact product, rounded. -/
def Double.mul (a b : Double) : Double := Double.round (a.m * b.m) (a.s + b.s)

/-- Binary64 sum: the exact sum, rounded. -/
def Double.add (a b : Double) : Double :=
  Double.round (a.m * 2 ^ (max a.s b.s - a.s) + b.m * 2 ^ (max a.s b.s - b.s)) (max a.s b.s)

instance : Mul Double := ⟨Double.mul⟩

instance : Add Double := ⟨Double.add⟩

/-- Integer promotion `Uint8 → int → double` (exact). -/
def Double.ofUint8 (n : Nat) : Double := ⟨n, 0⟩

/-- Integer part of a non-negative double. -/
def Double.trunc (a : Double) : Nat := a.m / 2 ^ a.s

/-- The cast `(Uint8)` of a double: truncation toward zero, kept in 8 bits. -/
def Double.toUint8 (a : Double) : Nat := a.trunc % 256

/-- The binary64 literal `0.3` = 0x1.3333333333333p-2. -/
def lit_0_3 : Double := ⟨5404319552844595, 54⟩

/-- The binary64 literal `0.59` = 0x1.2e147ae147ae1p-1. -/
def lit_0_59 : Double := ⟨5314247560297185, 53⟩

/-- The binary64 literal `0.11` = 0x1.c28f5c28f5c29p-4. -/
def lit_0_11 : Double := ⟨7926335344172073, 56⟩

/-! ## Constants of the three programs -/

/-- The constant `#define THRESHOLD_VALUE 128`. -/
def THRESHOLD_VALUE : Nat := 128

/-- The constant `#define BLOCK_SIZE 16`. -/
def BLOCK_SIZE : Nat := 16

/-- The value of `EXIT_SUCCESS` in `stdlib.h`. -/
def EXIT_SUCCESS : Nat := 0

/-- The value of `EXIT_FAILURE` in `stdlib.h`. -/
def EXIT_FAILURE : Nat := 1

/-! ## SDL pixel formats, surfaces and pixel memory -/

/-- One entry of an SDL palette. -/
structure SDL_Color where
  r : Nat
  g : Nat
  b : Nat
  a : Nat
deriving DecidableEq, Repr

/-- The pixel formats of the model: the packed 32-bit layouts with 8-bit channels, the two
3-byte layouts, and 8-bit indexed pixels with their palette. -/
inductive SDL_PixelFormat
  | XRGB8888 | XBGR8888 | RGBX8888 | BGRX8888
  | ARGB8888 | ABGR8888 | RGBA8888 | BGRA8888
  | RGB24 | BGR24
  | INDEX8 (palette : List SDL_Color)
deriving DecidableEq, Repr

/-- The field `BytesPerPixel` of the format. -/
def SDL_PixelFormat.BytesPerPixel : SDL_PixelFormat → Nat
  | .RGB24 | .BGR24 => 3
  | .INDEX8 _ => 1
  | _ => 4

/-- Bit position of the red channel (little-endian host). -/
def SDL_PixelFormat.Rshift : SDL_PixelFormat → Nat
  | .XRGB8888 | .ARGB8888 | .BGR24 => 16
  | .XBGR8888 | .ABGR8888 | .RGB24 => 0
  | .RGBX8888 | .RGBA8888 => 24
  | .BGRX8888 | .BGRA8888 => 8
  | .INDEX8 _ => 0

/-- Bit position of the green channel. -/
def SDL_PixelFormat.Gshift : SDL_PixelFormat → Nat
  | .XRGB8888 | .ARGB8888 | .BGR24 => 8
  | .XBGR8888 | .ABGR8888 | .RGB24 => 8
  | .RGBX8888 | .RGBA8888 => 16
  | .BGRX8888 | .BGRA8888 => 16
  | .INDEX8 _ => 0

/-- Bit position of the blue channel (little-endian host). -/
def SDL_PixelFormat.Bshift : SDL_PixelFormat → Nat
  | .XRGB8888 | .ARGB8888 | .BGR24 => 0
  | .XBGR8888 | .ABGR8888 | .RGB24 => 16
  | .RGBX8888 | .RGBA8888 => 8
  | .BGRX8888 | .BGRA8888 => 24
  | .INDEX8 _ => 0

/-- Alpha mask of the format (zero when the format has no alpha channel). -/
def SDL_PixelFormat.Amask : SDL_PixelFormat → Nat
  | .ARGB8888 | .ABGR8888 => 0xFF000000
  | .RGBA8888 | .BGRA8888 => 0x000000FF
  | _ => 0

/-- Squared difference of two channel values, the `rd * rd` of `SDL_FindColor`. -/
def sqDiff (x y : Nat) : Nat := (x - y + (y - x)) * (x - y + (y - x))

/-- The loop of the SDL2 function `SDL_FindColor`, from palette index `i` on: `smallest` is
the smallest distance seen so far and `pixel` the index that has it. -/
def SDL_FindColorFrom (r g b a : Nat) : List SDL_Color → Nat → Nat → Nat → Nat
  | [], _, _, pixel => pixel
  | c :: cs, i, smallest, pixel =>
    if sqDiff c.r r + sqDiff c.g g + sqDiff c.b b + sqDiff c.a a < smallest then
      if sqDiff c.r r + sqDiff c.g g + sqDiff c.b b + sqDiff c.a a = 0 then i % 256
      else
        SDL_FindColorFrom r g b a cs (i + 1)
          (sqDiff c.r r + sqDiff c.g g + sqDiff c.b b + sqDiff c.a a) (i % 256)
    else SDL_FindColorFrom r g b a cs (i + 1) smallest pixel

/-- The SDL2 function `SDL_FindColor`: index of the first palette entry closest to the
colour. -/
def SDL_FindColor (palette : List SDL_Color) (r g b a : Nat) : Nat :=
  SDL_FindColorFrom r g b a palette 0 (2 ^ 32 - 1) 0

/-- The SDL2 function `SDL_GetRGB`: without a palette each channel is
`(pixel & mask) >> shift` with an 8-bit mask; with a palette the pixel value is looked up,
and a value that is no palette index gives (0,0,0). -/
def SDL_GetRGB (pixel : Nat) (format : SDL_PixelFormat) : Nat × Nat × Nat :=
  match format with
  | .INDEX8 palette =>
    if pixel < palette.length then
      ((palette.getD pixel ⟨0, 0, 0, 0⟩).r, (palette.getD pixel ⟨0, 0, 0, 0⟩).g,
        (palette.getD pixel ⟨0, 0, 0, 0⟩).b)
    else (0, 0, 0)
  | _ =>
    (pixel / 2 ^ format.Rshift % 256, pixel / 2 ^ format.Gshift % 256,
      pixel / 2 ^ format.Bshift % 256)

/-- The SDL2 function `SDL_MapRGB`: without a palette
`r << Rshift | g << Gshift | b << Bshift | Amask` (the fields are disjoint, so the bitwise
or is a sum); with a palette the index `SDL_FindColor` gives for the opaque colour. -/
def SDL_MapRGB (format : SDL_PixelFormat) (r g b : Nat) : Nat :=
  match format with
  | .INDEX8 palette => SDL_FindColor palette r g b 255
  | _ => r * 2 ^ format.Rshift + g * 2 ^ format.Gshift + b * 2 ^ format.Bshift + format.Amask

/-- Byte-addressed memory: the byte at an offset from `surface->pixels`. -/
abbrev Memory := Nat → Nat

/-- The little-endian value of the `n` bytes at offset `a`. -/
def loadBytes (mem : Memory) (a : Nat) : Nat → Nat
  | 0 => 0
  | n + 1 => mem a + 256 * loadBytes mem (a + 1) n

/-- The read `*(Uint32 *)((Uint8 *)pixels + a)`. -/
def load32 (mem : Memory) (a : Nat) : Nat := loadBytes mem a 4

/-- The store `*(Uint32 *)((Uint8 *)pixels + a) = v`: four bytes change. -/
def store32 (mem : Memory) (a v : Nat) : Memory :=
  fun b => if a ≤ b ∧ b < a + 4 then v / 256 ^ (b - a) % 256 else mem b

/-- The fields of `SDL_Surface` the programs read. -/
structure SDL_Surface where
  format : SDL_PixelFormat
  w : Nat
  h : Nat
  pitch : Nat
  pixels : Memory

/-- The pitch SDL gives a surface it allocates (as `IMG_Load` does): the row length in
bytes, rounded up to a multiple of four. -/
def SDL_CalculatePitch (format : SDL_PixelFormat) (width : Nat) : Nat :=
  (width * format.BytesPerPixel + 3) / 4 * 4

/-- The value of the pixel at row `y`, column `x` of the surface, read from the memory
`mem` in the layout of the surface: `BytesPerPixel` bytes at `y * pitch + x * BytesPerPixel`. -/
def pixelAt (s : SDL_Surface) (mem : Memory) (y x : Nat) : Nat :=
  loadBytes mem (y * s.pitch + x * s.format.BytesPerPixel) s.format.BytesPerPixel

/-! ## The per-pixel transform (identical text in `Seq.c` and `mpi.c`) -/

/-- The expression `0.3 * r + 0.59 * g + 0.11 * b` as C evaluates it. -/
def luminance (r g b : Nat) : Double :=
  lit_0_3 * Double.ofUint8 r + lit_0_59 * Double.ofUint8 g + lit_0_11 * Double.ofUint8 b

/-- The statement `Uint8 gray = (Uint8)(0.3 * r + 0.59 * g + 0.11 * b);`. -/
def gray (r g b : Nat) : Nat := (luminance r g b).toUint8

/-- Body of the inner loop of `Seq.c` (lines 59-68) and `mpi.c` (lines 74-83): the new
word of a pixel. -/
def thresholdPixel (format : SDL_PixelFormat) (pixel : Nat) : Nat :=
  let rgb := SDL_GetRGB pixel format
  if gray rgb.1 rgb.2.1 rgb.2.2 < THRESHOLD_VALUE then SDL_MapRGB format 0 0 0
  else SDL_MapRGB format 255 255 255

/-- One iteration of the inner loop: the word at `y * pitch + x * sizeof(Uint32)` is read,
thresholded and stored back. -/
def thresholdStep (format : SDL_PixelFormat) (pitch y x : Nat) (mem : Memory) : Memory :=
  store32 mem (y * pitch + x * 4) (thresholdPixel format (load32 mem (y * pitch + x * 4)))

/-- The loop `for (int x = 0; x < w; ++x)` on row `y`. -/
def thresholdRow (format : SDL_PixelFormat) (w pitch y : Nat) (mem : Memory) : Memory :=
  (List.range w).foldl (fun m x => thresholdStep format pitch y x m) mem

/-- The loop `for (int y = start_row; y < end_row; ++y)` around the row loop. -/
def thresholdRows (format : SDL_PixelFormat) (w pitch start_row end_row : Nat) (mem : Memory) :
    Memory :=
  (List.range' start_row (end_row - start_row)).foldl
    (fun m y => thresholdRow format w pitch y m) mem

/-- A pixel value that decodes to (0,0,0). -/
def isBlack (format : SDL_PixelFormat) (pixel : Nat) : Prop :=
  SDL_GetRGB pixel format = (0, 0, 0)

/-- A pixel value that decodes to (255,255,255). -/
def isWhite (format : SDL_PixelFormat) (pixel : Nat) : Prop :=
  SDL_GetRGB pixel format = (255, 255, 255)

instance (format : SDL_PixelFormat) (pixel : Nat) : Decidable (isBlack format pixel) := by
  unfold isBlack; infer_instance

instance (format : SDL_PixelFormat) (pixel : Nat) : Decidable (isWhite format pixel) := by
  unfold isWhite; infer_instance

/-! ## Process environment and observable behaviour of `main` -/

/-- Results of the library calls a run of `main` makes. -/
structure Env where
  SDL_Init_ok : Bool
  IMG_Init_ok : Bool
  window_ok : Bool
  IMG_Load : Option SDL_Surface

/-- Observable actions of the three programs, in program order. -/
inductive Event
  | usage
  | MPI_Init | MPI_Finalize | MPI_Barrier
  | MPI_Send (dest : Nat) | MPI_Recv (source : Nat)
  | SDL_Init | SDL_Quit
  | IMG_Init | IMG_Quit
  | SDL_CreateWindow | SDL_DestroyWindow
  | IMG_Load | SDL_FreeSurface
  | errSDLInit | errIMGInit | errWindow | errLoad
  | printTime
  | printGridSize (x y : Nat)
  | kernelLaunch
  | display
  | SDL_Delay (ms : Nat)
deriving DecidableEq, Repr

/-- What a run of the sequential or row-sliced `main` leaves behind. -/
structure Outcome where
  trace : List Event
  exit : Nat
  image : Option Memory

/-! ## `Seq.c` -/

namespace Seq

/-- Lines 57-70 of `Seq.c`: the transform loop over all rows of the surface. -/
def transformLoop (s : SDL_Surface) : Memory :=
  thresholdRows s.format s.w s.pitch 0 s.h s.pixels

/-- The function `main` of `Seq.c`. -/
def main (argc : Int) (env : Env) : Outcome :=
  if argc ≠ 2 then ⟨[.usage], EXIT_FAILURE, none⟩
  else if env.SDL_Init_ok = false then ⟨[.SDL_Init, .errSDLInit], EXIT_FAILURE, none⟩
  else if env.IMG_Init_ok = false then
    ⟨[.SDL_Init, .IMG_Init, .errIMGInit, .SDL_Quit], EXIT_FAILURE, none⟩
  else if env.window_ok = false then
    ⟨[.SDL_Init, .IMG_Init, .SDL_CreateWindow, .errWindow, .IMG_Quit, .SDL_Quit],
      EXIT_FAILURE, none⟩
  else
    match env.IMG_Load with
    | none =>
      ⟨[.SDL_Init, .IMG_Init, .SDL_CreateWindow, .IMG_Load, .errLoad, .SDL_DestroyWindow,
        .IMG_Quit, .SDL_Quit], EXIT_FAILURE, none⟩
    | some s =>
      ⟨[.SDL_Init, .IMG_Init, .SDL_CreateWindow, .IMG_Load, .printTime, .display,
        .SDL_Delay 5000, .SDL_FreeSurface, .SDL_DestroyWindow, .IMG_Quit, .SDL_Quit],
        EXIT_SUCCESS, some (transformLoop s)⟩

end Seq

/-! ## `mpi.c` -/

namespace mpi

/-- The statement `int rows_per_process = imageSurface->h / num_procs;`. -/
def rows_per_process (h num_procs : Nat) : Nat := h / num_procs

/-- The statement `int start_row = rank * rows_per_process;`. -/
def start_row (h num_procs rank : Nat) : Nat := rank * rows_per_process h num_procs

/-- The statement
`int end_row = (rank == num_procs - 1) ? imageSurface->h : start_row + rows_per_process;`. -/
def end_row (h num_procs rank : Nat) : Nat :=
  if rank = num_procs - 1 then h
  else start_row h num_procs rank + rows_per_process h num_procs

/-- Lines 72-85 of `mpi.c`: the worker thresholds its own rows in its private copy. -/
def computePhase (s : SDL_Surface) (num_procs rank : Nat) : Memory :=
  thresholdRows s.format s.w s.pitch (start_row s.h num_procs rank) (end_row s.h num_procs rank)
    s.pixels

/-- A point-to-point message of `count` bytes; `data k` is its `k`-th byte. -/
structure Message where
  count : Nat
  data : Nat → Nat

/-- The payload of `MPI_Send(pixels + start_row * pitch, (end_row - start_row) * pitch, ...)`. -/
def sendBuffer (mem : Memory) (pitch start_row end_row : Nat) : Message :=
  ⟨(end_row - start_row) * pitch, fun k => mem (start_row * pitch + k)⟩

/-- The effect of `MPI_Recv(pixels + recv_start_row * pitch,
(recv_end_row - recv_start_row) * pitch, ...)`: the bytes of the message, at most as many
as the receive count allows, land at `recv_start_row * pitch`. -/
def recvInto (mem : Memory) (pitch recv_start_row recv_end_row : Nat) (msg : Message) : Memory :=
  fun b =>
    if recv_start_row * pitch ≤ b ∧
        b < recv_start_row * pitch + min ((recv_end_row - recv_start_row) * pitch) msg.count then
      msg.data (b - recv_start_row * pitch)
    else mem b

/-- Lines 100-105 of `mpi.c`: rank 0 receives from ranks `1 .. num_procs - 1` in order. -/
def gather (h pitch num_procs : Nat) (inbox : Nat → Message) (mem : Memory) : Memory :=
  (List.range' 1 (num_procs - 1)).foldl
    (fun p i =>
      recvInto p pitch (i * rows_per_process h num_procs)
        (if i = num_procs - 1 then h
         else i * rows_per_process h num_procs + rows_per_process h num_procs)
        (inbox i))
    mem

/-- The function `main` of `mpi.c`, run by the process of rank `rank` among `num_procs`;
`inbox i` is the message that rank `i` sent to this process.  The second component is the
message this process sends to rank 0, if any. -/
def main (argc : Int) (env : Env) (rank num_procs : Nat) (inbox : Nat → Message) :
    Outcome × Option Message :=
  if argc ≠ 2 then (⟨[.usage], EXIT_FAILURE, none⟩, none)
  else if env.SDL_Init_ok = false then
    (⟨[.MPI_Init, .SDL_Init, .errSDLInit, .MPI_Finalize], EXIT_FAILURE, none⟩, none)
  else if env.IMG_Init_ok = false then
    (⟨[.MPI_Init, .SDL_Init, .IMG_Init, .errIMGInit, .SDL_Quit, .MPI_Finalize],
      EXIT_FAILURE, none⟩, none)
  else if env.window_ok = false then
    (⟨[.MPI_Init, .SDL_Init, .IMG_Init, .SDL_CreateWindow, .errWindow, .IMG_Quit, .SDL_Quit,
      .MPI_Finalize], EXIT_FAILURE, none⟩, none)
  else
    match env.IMG_Load with
    | none =>
      (⟨[.MPI_Init, .SDL_Init, .IMG_Init, .SDL_CreateWindow, .IMG_Load, .errLoad,
        .SDL_DestroyWindow, .IMG_Quit, .SDL_Quit, .MPI_Finalize], EXIT_FAILURE, none⟩, none)
    | some s =>
      let computed := computePhase s num_procs rank
      if rank = 0 then
        (⟨[.MPI_Init, .SDL_Init, .IMG_Init, .SDL_CreateWindow, .IMG_Load, .printTime,
            .MPI_Barrier]
            ++ (List.range' 1 (num_procs - 1)).map Event.MPI_Recv
            ++ [.display, .SDL_Delay 10000, .SDL_FreeSurface, .SDL_DestroyWindow, .IMG_Quit,
              .SDL_Quit, .MPI_Finalize],
          EXIT_SUCCESS, some (gather s.h s.pitch num_procs inbox computed)⟩, none)
      else
        (⟨[.MPI_Init, .SDL_Init, .IMG_Init, .SDL_CreateWindow, .IMG_Load, .printTime,
            .MPI_Barrier, .MPI_Send 0, .MPI_Finalize],
          EXIT_SUCCESS, some computed⟩,
          some (sendBuffer computed s.pitch (start_row s.h num_procs rank)
            (end_row s.h num_procs rank)))

/-- The message rank `i` puts on the wire when every process loads the surface `s`. -/
def messageOf (s : SDL_Surface) (num_procs i : Nat) : Message :=
  sendBuffer (computePhase s num_procs i) s.pitch (start_row s.h num_procs i)
    (end_row s.h num_procs i)

end mpi

/-! ## `cudac.c` -/

namespace cudac

/-- The `x` and `y` members of a CUDA `dim3` / `uint3` (the launch is two-dimensional). -/
structure Dim3 where
  x : Nat
  y : Nat
deriving DecidableEq, Repr

/-- One thread of a launch: its `blockIdx` and `threadIdx`. -/
structure Thread where
  blockIdx : Dim3
  threadIdx : Dim3
deriving DecidableEq, Repr

/-- The kernel `thresholdImageKernel` (lines 10-21 of `cudac.c`), run by one thread. -/
def thresholdImageKernel (blockIdx blockDim threadIdx : Dim3) (image : Nat → Nat)
    (width height : Nat) : Nat → Nat :=
  let x := blockIdx.x * blockDim.x + threadIdx.x
  let y := blockIdx.y * blockDim.y + threadIdx.y
  if x < width ∧ y < height then
    let index := y * width + x
    let pixel := image index
    Function.update image index (if pixel < THRESHOLD_VALUE then 0 else 255)
  else image

/-- The cell a thread stores to, if its bounds check passes. -/
def writeIndex (blockDim : Dim3) (t : Thread) (width height : Nat) : Option Nat :=
  let x := t.blockIdx.x * blockDim.x + t.threadIdx.x
  let y := t.blockIdx.y * blockDim.y + t.threadIdx.y
  if x < width ∧ y < height then some (y * width + x) else none

/-- The declaration `dim3 dimBlock(BLOCK_SIZE, BLOCK_SIZE);`. -/
def dimBlock : Dim3 := ⟨BLOCK_SIZE, BLOCK_SIZE⟩

/-- The declaration
`dim3 dimGrid((width + dimBlock.x - 1) / dimBlock.x, (height + dimBlock.y - 1) / dimBlock.y);`. -/
def dimGrid (width height : Nat) : Dim3 :=
  ⟨(width + dimBlock.x - 1) / dimBlock.x, (height + dimBlock.y - 1) / dimBlock.y⟩

/-- Membership of a thread in the launch `<<<grid, block>>>`. -/
def inGrid (grid block : Dim3) (t : Thread) : Prop :=
  t.blockIdx.x < grid.x ∧ t.blockIdx.y < grid.y ∧ t.threadIdx.x < block.x ∧ t.threadIdx.y < block.y

/-- All threads of the launch `<<<grid, block>>>`, block by block. -/
def gridThreads (grid block : Dim3) : List Thread :=
  (List.product (List.product (List.range grid.y) (List.range grid.x))
    (List.product (List.range block.y) (List.range block.x))).map
    (fun p => ⟨⟨p.1.2, p.1.1⟩, ⟨p.2.2, p.2.1⟩⟩)

/-- The launch `thresholdImageKernel<<<grid, block>>>(deviceImage, width, height)` followed
by `cudaDeviceSynchronize()`: every thread of the grid runs the kernel once. -/
def launch (grid block : Dim3) (image : Nat → Nat) (width height : Nat) : Nat → Nat :=
  (gridThreads grid block).foldl
    (fun img t => thresholdImageKernel t.blockIdx block t.threadIdx img width height) image

/-- Lines 54-61 of `cudac.c`: the host loop that fills `hostImage` with gray bytes. -/
def hostCopyLoop (s : SDL_Surface) (hostImage : Nat → Nat) : Nat → Nat :=
  (List.range s.h).foldl
    (fun img y =>
      (List.range s.w).foldl
        (fun img1 x =>
          let rgb := SDL_GetRGB (load32 s.pixels (y * s.pitch + x * 4)) s.format
          Function.update img1 (y * s.w + x) (gray rgb.1 rgb.2.1 rgb.2.2))
        img)
    hostImage

/-- The bytes `cudaMemcpy` brings back to `hostImage` (lines 54-85 of `cudac.c`);
`hostImage` is the content of the freshly allocated buffer. -/
def deviceResult (s : SDL_Surface) (hostImage : Nat → Nat) : Nat → Nat :=
  launch (dimGrid s.w s.h) dimBlock (hostCopyLoop s hostImage) s.w s.h

/-- What a run of the grid variant leaves behind. -/
structure Outcome where
  trace : List Event
  exit : Nat
  hostImage : Option (Nat → Nat)

/-- The function `main` of `cudac.c`; `hostImage` is the content of the fresh buffer. -/
def main (argc : Int) (env : Env) (hostImage : Nat → Nat) : Outcome :=
  if argc ≠ 2 then ⟨[.usage], EXIT_FAILURE, none⟩
  else if env.IMG_Init_ok = false then ⟨[.IMG_Init, .errIMGInit], EXIT_FAILURE, none⟩
  else
    match env.IMG_Load with
    | none => ⟨[.IMG_Init, .IMG_Load, .errLoad, .IMG_Quit], EXIT_FAILURE, none⟩
    | some s =>
      ⟨[.IMG_Init, .IMG_Load, .kernelLaunch,
        .printGridSize (dimGrid s.w s.h).x (dimGrid s.w s.h).y, .printTime,
        .SDL_FreeSurface, .IMG_Quit],
        EXIT_SUCCESS, some (deviceResult s hostImage)⟩

end cudac

/-! ## Exact-arithmetic reference used to compare with the spec -/

/-- The floor of the weighted sum `0.3 R + 0.59 G + 0.11 B` computed over the rationals,
as the specification reads the formula. -/
def specGray (r g b : Nat) : Nat := (30 * r + 59 * g + 11 * b) / 100

/-- The rational value of a double. -/
def Double.val (a : Double) : ℚ := (a.m : ℚ) / 2 ^ a.s

/-- The byte `k` (0 = least significant) of a 32-bit value. -/
def byteOf (v k : Nat) : Nat := v / 256 ^ k % 256

/-- The memory `mem` is `mem0` with exactly the aligned 32-bit words whose index satisfies
`S` thresholded (each once), byte by byte. -/
def ThresholdedOn (format : SDL_PixelFormat) (S : Nat → Prop) (mem0 mem : Memory) : Prop :=
  ∀ b, (S (b / 4) →
      mem b = byteOf (thresholdPixel format (load32 mem0 (4 * (b / 4)))) (b % 4)) ∧
    (¬ S (b / 4) → mem b = mem0 b)

/-- A 3-wide, 2-high ARGB surface (pitch 12) whose pixel `(y, x)` is the opaque gray
`42 * (3 y + x)`. -/
def sampleSurface : SDL_Surface :=
  ⟨.ARGB8888, 3, 2, 12, fun a => if a < 24 then byteOf (0xFF000000 + a / 4 * 0x2A2A2A) (a % 4) else 0⟩

/-- A 4-byte-per-pixel ARGB surface of the given size, as SDL allocates it, whose every
pixel is the opaque gray `(v, v, v)`. -/
def uniformSurface (w h v : Nat) : SDL_Surface :=
  ⟨.ARGB8888, w, h, 4 * w, fun a => if a % 4 = 3 then 255 else v⟩

/-- A 4-wide, 3-high 3-byte-per-pixel RGB surface (pitch 12), as `IMG_Load` returns it for
a PNG without alpha, whose every pixel is the gray (200, 200, 200). -/
def rgb24Surface : SDL_Surface :=
  ⟨.RGB24, 4, 3, 12, fun a => if a < 36 then 200 else 0⟩

/-- An environment in which every library call succeeds and `IMG_Load` returns `s`. -/
def goodEnv (s : SDL_Surface) : Env := ⟨true, true, true, some s⟩


/-! ## Lemmas: pixel formats and aligned pixel memory -/

theorem getRGB_mapRGB_black (format : SDL_PixelFormat) (hf : format.BytesPerPixel ≠ 1) :
    SDL_GetRGB (SDL_MapRGB format 0 0 0) format = (0, 0, 0) := by
  cases format <;> first | decide | exact absurd rfl hf

theorem getRGB_mapRGB_white (format : SDL_PixelFormat) (hf : format.BytesPerPixel ≠ 1) :
    SDL_GetRGB (SDL_MapRGB format 255 255 255) format = (255, 255, 255) := by
  cases format <;> first | decide | exact absurd rfl hf

theorem mapRGB_black_lt (format : SDL_PixelFormat) (hf : format.BytesPerPixel ≠ 1) :
    SDL_MapRGB format 0 0 0 < 2 ^ 32 := by
  cases format <;> first | decide | exact absurd rfl hf

theorem mapRGB_white_lt (format : SDL_PixelFormat) (hf : format.BytesPerPixel ≠ 1) :
    SDL_MapRGB format 255 255 255 < 2 ^ 32 := by
  cases format <;> first | decide | exact absurd rfl hf

/-- The loop body writes one of two words. -/
theorem thresholdPixel_cases (format : SDL_PixelFormat) (pixel : Nat) :
    thresholdPixel format pixel = SDL_MapRGB format 0 0 0 ∨
      thresholdPixel format pixel = SDL_MapRGB format 255 255 255 := by
  unfold thresholdPixel
  by_cases h : gray (SDL_GetRGB pixel format).1 (SDL_GetRGB pixel format).2.1
      (SDL_GetRGB pixel format).2.2 < THRESHOLD_VALUE
  · exact Or.inl (if_pos h)
  · exact Or.inr (if_neg h)

theorem thresholdPixel_lt (format : SDL_PixelFormat) (hf : format.BytesPerPixel ≠ 1)
    (pixel : Nat) : thresholdPixel format pixel < 2 ^ 32 := by
  rcases thresholdPixel_cases format pixel with h | h
  · rw [h]; exact mapRGB_black_lt format hf
  · rw [h]; exact mapRGB_white_lt format hf

/-- Without a palette, thresholding a thresholded word changes nothing. -/
theorem thresholdPixel_idem (format : SDL_PixelFormat) (hf : format.BytesPerPixel ≠ 1)
    (pixel : Nat) :
    thresholdPixel format (thresholdPixel format pixel) = thresholdPixel format pixel := by
  have hb : thresholdPixel format (SDL_MapRGB format 0 0 0) = SDL_MapRGB format 0 0 0 := by
    unfold thresholdPixel
    simp only []
    rw [getRGB_mapRGB_black format hf]
    exact if_pos (by decide)
  have hw : thresholdPixel format (SDL_MapRGB format 255 255 255) =
      SDL_MapRGB format 255 255 255 := by
    unfold thresholdPixel
    simp only []
    rw [getRGB_mapRGB_white format hf]
    exact if_neg (by decide)
  rcases thresholdPixel_cases format pixel with h | h
  · rw [h, hb]
  · rw [h, hw]

theorem load32_eq (mem : Memory) (a : Nat) :
    load32 mem a = mem a + 256 * mem (a + 1) + 65536 * mem (a + 2) + 16777216 * mem (a + 3) := by
  simp only [load32, loadBytes]
  ring

theorem byteOf_zero (v : Nat) : byteOf v 0 = v % 256 := by simp [byteOf]

theorem byteOf_one (v : Nat) : byteOf v 1 = v / 256 % 256 := by simp [byteOf]

theorem byteOf_two (v : Nat) : byteOf v 2 = v / 65536 % 256 := by
  simp [byteOf]

theorem byteOf_three (v : Nat) : byteOf v 3 = v / 16777216 % 256 := by
  simp [byteOf]

/-- Four bytes that are the bytes of a 32-bit value load as that value. -/
theorem load32_of_bytes (mem : Memory) (a v : Nat) (hv : v < 2 ^ 32)
    (h0 : mem a = byteOf v 0) (h1 : mem (a + 1) = byteOf v 1) (h2 : mem (a + 2) = byteOf v 2)
    (h3 : mem (a + 3) = byteOf v 3) : load32 mem a = v := by
  rw [load32_eq, h0, h1, h2, h3, byteOf_zero, byteOf_one, byteOf_two, byteOf_three]
  have : v < 4294967296 := by simpa using hv
  omega

/-- A store to an aligned word changes the four bytes of that word and no other. -/
theorem store32_aligned (mem : Memory) (j v b : Nat) :
    store32 mem (4 * j) v b = if b / 4 = j then byteOf v (b % 4) else mem b := by
  unfold store32 byteOf
  by_cases hb : b / 4 = j
  · have h1 : 4 * j ≤ b ∧ b < 4 * j + 4 := by omega
    have h2 : b - 4 * j = b % 4 := by omega
    rw [if_pos h1, if_pos hb, h2]
  · have h1 : ¬ (4 * j ≤ b ∧ b < 4 * j + 4) := by omega
    rw [if_neg h1, if_neg hb]

theorem thresholdedOn_refl (format : SDL_PixelFormat) (mem0 : Memory) :
    ThresholdedOn format (fun _ => False) mem0 mem0 := by
  intro b
  exact ⟨fun h => absurd h id, fun _ => rfl⟩

theorem thresholdedOn_congr (format : SDL_PixelFormat) (S S1 : Nat → Prop) (mem0 mem : Memory)
    (h : ThresholdedOn format S mem0 mem) (hS : ∀ j, S j ↔ S1 j) :
    ThresholdedOn format S1 mem0 mem := by
  intro b
  exact ⟨fun h1 => (h b).1 ((hS _).mpr h1), fun h1 => (h b).2 (fun h2 => h1 ((hS _).mp h2))⟩

/-- Under the invariant, an aligned word reads as the thresholded original word if its
index is in `S`, and as the original word otherwise. -/
theorem thresholdedOn_load (format : SDL_PixelFormat) (hf : format.BytesPerPixel ≠ 1)
    (S : Nat → Prop) (mem0 mem : Memory) (h : ThresholdedOn format S mem0 mem) (j : Nat) :
    (S j → load32 mem (4 * j) = thresholdPixel format (load32 mem0 (4 * j))) ∧
    (¬ S j → load32 mem (4 * j) = load32 mem0 (4 * j)) := by
  have d0 : (4 * j) / 4 = j := by omega
  have d1 : (4 * j + 1) / 4 = j := by omega
  have d2 : (4 * j + 2) / 4 = j := by omega
  have d3 : (4 * j + 3) / 4 = j := by omega
  have m0 : (4 * j) % 4 = 0 := by omega
  have m1 : (4 * j + 1) % 4 = 1 := by omega
  have m2 : (4 * j + 2) % 4 = 2 := by omega
  have m3 : (4 * j + 3) % 4 = 3 := by omega
  have e0 := h (4 * j)
  have e1 := h (4 * j + 1)
  have e2 := h (4 * j + 2)
  have e3 := h (4 * j + 3)
  rw [d0, m0] at e0
  rw [d1, m1] at e1
  rw [d2, m2] at e2
  rw [d3, m3] at e3
  constructor
  · intro hS
    exact load32_of_bytes mem (4 * j) _ (thresholdPixel_lt format hf _) (e0.1 hS) (e1.1 hS)
      (e2.1 hS) (e3.1 hS)
  · intro hS
    rw [load32_eq, load32_eq, e0.2 hS, e1.2 hS, e2.2 hS, e3.2 hS]

/-- One loop iteration on an aligned word adds its index to the thresholded set. -/
theorem thresholdedOn_step (format : SDL_PixelFormat) (hf : format.BytesPerPixel ≠ 1)
    (S : Nat → Prop) (mem0 mem : Memory) (h : ThresholdedOn format S mem0 mem) (j : Nat) :
    ThresholdedOn format (fun k => S k ∨ k = j) mem0
      (store32 mem (4 * j) (thresholdPixel format (load32 mem (4 * j)))) := by
  have hval : thresholdPixel format (load32 mem (4 * j)) =
      thresholdPixel format (load32 mem0 (4 * j)) := by
    by_cases hS : S j
    · rw [(thresholdedOn_load format hf S mem0 mem h j).1 hS, thresholdPixel_idem format hf]
    · rw [(thresholdedOn_load format hf S mem0 mem h j).2 hS]
  intro b
  rw [store32_aligned, hval]
  by_cases hb : b / 4 = j
  · rw [if_pos hb]
    constructor
    · intro _
      rw [hb]
    · intro hn
      exact absurd (Or.inr hb) hn
  · rw [if_neg hb]
    constructor
    · intro hS
      rcases hS with hS | hS
      · exact (h b).1 hS
      · exact absurd hS hb
    · intro hn
      exact (h b).2 (fun hS => hn (Or.inl hS))


theorem thresholdStep_aligned (format : SDL_PixelFormat) (P y x : Nat) (mem : Memory) :
    thresholdStep format (4 * P) y x mem =
      store32 mem (4 * (y * P + x)) (thresholdPixel format (load32 mem (4 * (y * P + x)))) := by
  unfold thresholdStep
  have h : y * (4 * P) + x * 4 = 4 * (y * P + x) := by ring
  rw [h]

/-- The column loop on row `y` thresholds the words `y * P + x`, `x < w`. -/
theorem thresholdedOn_row (format : SDL_PixelFormat) (hf : format.BytesPerPixel ≠ 1)
    (P y : Nat) (S : Nat → Prop) (mem0 : Memory) (w : Nat) :
    ∀ mem, ThresholdedOn format S mem0 mem →
      ThresholdedOn format (fun k => S k ∨ ∃ x, x < w ∧ k = y * P + x) mem0
        (thresholdRow format w (4 * P) y mem) := by
  induction w with
  | zero =>
    intro mem h
    apply thresholdedOn_congr format S _ mem0 _ h
    intro j
    constructor
    · intro hj; exact Or.inl hj
    · intro hj
      rcases hj with hj | ⟨x, hx, _⟩
      · exact hj
      · exact absurd hx (Nat.not_lt_zero x)
  | succ n ih =>
    intro mem h
    unfold thresholdRow
    rw [List.range_succ, List.foldl_append]
    simp only [List.foldl_cons, List.foldl_nil]
    rw [thresholdStep_aligned]
    have h1 := ih mem h
    unfold thresholdRow at h1
    have h2 := thresholdedOn_step format hf _ mem0 _ h1 (y * P + n)
    apply thresholdedOn_congr format _ _ mem0 _ h2
    intro j
    constructor
    · intro hj
      rcases hj with (hj | ⟨x, hx, hjx⟩) | hj
      · exact Or.inl hj
      · exact Or.inr ⟨x, Nat.lt_succ_of_lt hx, hjx⟩
      · exact Or.inr ⟨n, Nat.lt_succ_self n, hj⟩
    · intro hj
      rcases hj with hj | ⟨x, hx, hjx⟩
      · exact Or.inl (Or.inl hj)
      · rcases Nat.lt_succ_iff_lt_or_eq.mp hx with hlt | heq
        · exact Or.inl (Or.inr ⟨x, hlt, hjx⟩)
        · rw [heq] at hjx
          exact Or.inr hjx

/-- The row loop over `n` rows from row `a` thresholds the words of those rows. -/
theorem thresholdedOn_rows (format : SDL_PixelFormat) (hf : format.BytesPerPixel ≠ 1)
    (w P a : Nat) (S : Nat → Prop) (mem0 : Memory) (n : Nat) :
    ∀ mem, ThresholdedOn format S mem0 mem →
      ThresholdedOn format
        (fun k => S k ∨ ∃ y x, (a ≤ y ∧ y < a + n) ∧ x < w ∧ k = y * P + x) mem0
        ((List.range' a n).foldl (fun m y => thresholdRow format w (4 * P) y m) mem) := by
  induction n with
  | zero =>
    intro mem h
    apply thresholdedOn_congr format S _ mem0 _ h
    intro j
    constructor
    · intro hj; exact Or.inl hj
    · intro hj
      rcases hj with hj | ⟨y, x, hy, _⟩
      · exact hj
      · omega
  | succ n ih =>
    intro mem h
    rw [List.range'_concat, List.foldl_append]
    simp only [List.foldl_cons, List.foldl_nil, one_mul]
    have h1 := ih mem h
    have h2 := thresholdedOn_row format hf P (a + n) _ mem0 w _ h1
    apply thresholdedOn_congr format _ _ mem0 _ h2
    intro j
    constructor
    · intro hj
      rcases hj with (hj | ⟨y, x, hy, hx, hjx⟩) | ⟨x, hx, hjx⟩
      · exact Or.inl hj
      · exact Or.inr ⟨y, x, by omega, hx, hjx⟩
      · exact Or.inr ⟨a + n, x, by omega, hx, hjx⟩
    · intro hj
      rcases hj with hj | ⟨y, x, hy, hx, hjx⟩
      · exact Or.inl (Or.inl hj)
      · by_cases hlast : y = a + n
        · rw [hlast] at hjx
          exact Or.inr ⟨x, hx, hjx⟩
        · exact Or.inl (Or.inr ⟨y, x, by omega, hx, hjx⟩)

/-- The loop over the rows `[a, b)` of a buffer with pitch `4 * P` thresholds exactly the
aligned words `y * P + x` with `a <= y < b` and `x < w`, each as if once. -/
theorem thresholdRows_on (format : SDL_PixelFormat) (hf : format.BytesPerPixel ≠ 1)
    (w P a b : Nat) (mem0 : Memory) :
    ThresholdedOn format (fun k => ∃ y x, (a ≤ y ∧ y < b) ∧ x < w ∧ k = y * P + x) mem0
      (thresholdRows format w (4 * P) a b mem0) := by
  unfold thresholdRows
  have h := thresholdedOn_rows format hf w P a (fun _ => False) mem0 (b - a) mem0
    (thresholdedOn_refl format mem0)
  apply thresholdedOn_congr format _ _ mem0 _ h
  intro j
  constructor
  · intro hj
    rcases hj with hj | ⟨y, x, hy, hx, hjx⟩
    · exact absurd hj id
    · exact ⟨y, x, by omega, hx, hjx⟩
  · intro hj
    obtain ⟨y, x, hy, hx, hjx⟩ := hj
    exact Or.inr ⟨y, x, by omega, hx, hjx⟩

/-- On a 4-byte-per-pixel surface with pitch `4 * P` a pixel is the aligned word
`y * P + x`. -/
theorem pixelAt_word (s : SDL_Surface) (hb : s.format.BytesPerPixel = 4) (P : Nat)
    (hp : s.pitch = 4 * P) (mem : Memory) (y x : Nat) :
    pixelAt s mem y x = load32 mem (4 * (y * P + x)) := by
  unfold pixelAt load32
  rw [hb, hp]
  have h : y * (4 * P) + x * 4 = 4 * (y * P + x) := by ring
  rw [h]

theorem Seq_transformLoop_on (s : SDL_Surface) (hf : s.format.BytesPerPixel ≠ 1) (P : Nat)
    (hp : s.pitch = 4 * P) :
    ThresholdedOn s.format (fun k => ∃ y x, (0 ≤ y ∧ y < s.h) ∧ x < s.w ∧ k = y * P + x)
      s.pixels (Seq.transformLoop s) := by
  unfold Seq.transformLoop
  rw [hp]
  exact thresholdRows_on s.format hf s.w P 0 s.h s.pixels

/-- On a 4-byte-per-pixel surface the loop of `Seq.c` replaces every pixel of the image by
its thresholded value. -/
theorem Seq_pixel (s : SDL_Surface) (hb : s.format.BytesPerPixel = 4) (P : Nat)
    (hp : s.pitch = 4 * P) (y x : Nat) (hy : y < s.h) (hx : x < s.w) :
    pixelAt s (Seq.transformLoop s) y x = thresholdPixel s.format (pixelAt s s.pixels y x) := by
  have hf : s.format.BytesPerPixel ≠ 1 := by rw [hb]; decide
  rw [pixelAt_word s hb P hp, pixelAt_word s hb P hp]
  exact (thresholdedOn_load s.format hf _ s.pixels _ (Seq_transformLoop_on s hf P hp)
    (y * P + x)).1 ⟨y, x, ⟨Nat.zero_le y, hy⟩, hx, rfl⟩

/-! ## Lemmas: row partition and gather of `mpi.c` -/

namespace mpi

theorem start_row_zero (h n : Nat) : start_row h n 0 = 0 := by
  simp [start_row]

theorem end_row_last (h n : Nat) : end_row h n (n - 1) = h := by
  simp [end_row]

theorem end_row_of_not_last (h n k : Nat) (hk : k + 1 < n) :
    end_row h n k = (k + 1) * (h / n) := by
  have h1 : k ≠ n - 1 := by omega
  simp only [end_row, start_row, rows_per_process, if_neg h1]
  ring

theorem end_le_start (h n j k : Nat) (hjk : j < k) (hk : k < n) :
    end_row h n j ≤ start_row h n k := by
  rw [end_row_of_not_last h n j (by omega)]
  exact Nat.mul_le_mul_right _ (by omega)

theorem row_owner_exists (h n y : Nat) (hn : 1 ≤ n) (hy : y < h) :
    ∃ k, k < n ∧ start_row h n k ≤ y ∧ y < end_row h n k := by
  by_cases hlast : (n - 1) * (h / n) ≤ y
  · exact ⟨n - 1, by omega, hlast, by rw [end_row_last]; exact hy⟩
  · have hlt : y < (n - 1) * (h / n) := Nat.lt_of_not_le hlast
    have hr : 0 < h / n := by
      rcases Nat.eq_zero_or_pos (h / n) with h0 | h0
      · rw [h0] at hlt; simp at hlt
      · exact h0
    have hq : y / (h / n) < n - 1 := by
      rw [Nat.div_lt_iff_lt_mul hr]
      exact hlt
    refine ⟨y / (h / n), by omega, ?_, ?_⟩
    · exact Nat.div_mul_le_self y (h / n)
    · rw [end_row_of_not_last h n _ (by omega)]
      have h1 := Nat.div_add_mod y (h / n)
      have h2 := Nat.mod_lt y hr
      have h3 : (y / (h / n) + 1) * (h / n) = (h / n) * (y / (h / n)) + h / n := by ring
      rw [h3]
      omega

theorem row_owner_unique (h n y j k : Nat) (hj : j < n) (hk : k < n)
    (hj1 : start_row h n j ≤ y ∧ y < end_row h n j)
    (hk1 : start_row h n k ≤ y ∧ y < end_row h n k) : j = k := by
  rcases Nat.lt_trichotomy j k with hlt | heq | hgt
  · have := end_le_start h n j k hlt hk
    omega
  · exact heq
  · have := end_le_start h n k j hgt hj
    omega

theorem pred_mul_add (n r : Nat) (hn : 1 ≤ n) : (n - 1) * r + r = n * r := by
  obtain ⟨m, rfl⟩ : ∃ m, n = m + 1 := ⟨n - 1, by omega⟩
  simp [Nat.succ_mul]

theorem succ_mul_sub (m r : Nat) : (m + 1) * r - m * r = r := by
  rw [Nat.succ_mul]
  exact Nat.add_sub_cancel_left (m * r) r

theorem rows_sum (h n : Nat) (m : Nat) (hm : m < n) :
    ((List.range m).map (fun k => end_row h n k - start_row h n k)).sum = m * (h / n) := by
  induction m with
  | zero => simp
  | succ m ih =>
    rw [List.range_succ, List.map_append, List.sum_append, ih (by omega)]
    simp only [List.map_cons, List.map_nil, List.sum_cons, List.sum_nil, add_zero]
    rw [end_row_of_not_last h n m hm]
    simp only [start_row, rows_per_process]
    rw [succ_mul_sub, Nat.succ_mul]

theorem last_count (h n : Nat) (hn : 1 ≤ n) :
    end_row h n (n - 1) - start_row h n (n - 1) = h / n + h % n := by
  rw [end_row_last]
  simp only [start_row, rows_per_process]
  have h1 := Nat.div_add_mod h n
  have h2 := pred_mul_add n (h / n) hn
  generalize h % n = t at h1 ⊢
  generalize h / n = r at h1 h2 ⊢
  omega

theorem end_row_succ (h n k : Nat) (hk : k + 1 < n) :
    end_row h n k = start_row h n (k + 1) := by
  rw [end_row_of_not_last h n k hk]
  simp [start_row, rows_per_process]

end mpi

/-! ## Lemmas: the kernel, the launch and the host loop -/

namespace cudac

/-- Pointwise effect of one kernel thread: only the cell it indexes changes. -/
theorem kernel_apply (t : Thread) (block : Dim3) (image : Nat → Nat) (w h i : Nat) :
    thresholdImageKernel t.blockIdx block t.threadIdx image w h i =
      if writeIndex block t w h = some i then (if image i < THRESHOLD_VALUE then 0 else 255)
      else image i := by
  unfold thresholdImageKernel writeIndex
  by_cases hb : t.blockIdx.x * block.x + t.threadIdx.x < w ∧
      t.blockIdx.y * block.y + t.threadIdx.y < h
  · simp only [if_pos hb]
    by_cases hi : i = (t.blockIdx.y * block.y + t.threadIdx.y) * w +
        (t.blockIdx.x * block.x + t.threadIdx.x)
    · subst hi
      simp
    · have h1 : ¬ (some ((t.blockIdx.y * block.y + t.threadIdx.y) * w +
          (t.blockIdx.x * block.x + t.threadIdx.x)) = some i) := by
        intro h2
        exact hi (Option.some.inj h2).symm
      rw [if_neg h1, Function.update_noteq hi]
  · simp only [if_neg hb]
    simp

theorem kernel_of_none (t : Thread) (block : Dim3) (image : Nat → Nat) (w h : Nat)
    (hn : writeIndex block t w h = none) :
    thresholdImageKernel t.blockIdx block t.threadIdx image w h = image := by
  funext i
  rw [kernel_apply, hn]
  simp

theorem index_inj (w a b c d : Nat) (hb : b < w) (hd : d < w) (h : a * w + b = c * w + d) :
    a = c ∧ b = d := by
  have hac : a = c := by
    rcases Nat.lt_trichotomy a c with h1 | h1 | h1
    · have : (a + 1) * w ≤ c * w := Nat.mul_le_mul_right w h1
      rw [Nat.succ_mul] at this
      omega
    · exact h1
    · have : (c + 1) * w ≤ a * w := Nat.mul_le_mul_right w h1
      rw [Nat.succ_mul] at this
      omega
  subst hac
  exact ⟨rfl, by omega⟩

theorem grid_cover_aux (w h x y : Nat) (hx : x < w) (hy : y < h) :
    ∃! t : Thread, inGrid (dimGrid w h) dimBlock t ∧ writeIndex dimBlock t w h = some (y * w + x) := by
  refine ⟨⟨⟨x / 16, y / 16⟩, ⟨x % 16, y % 16⟩⟩, ⟨?_, ?_⟩, ?_⟩
  · simp only [inGrid, dimGrid, dimBlock, BLOCK_SIZE]
    omega
  · simp only [writeIndex, dimBlock, BLOCK_SIZE]
    have h1 : x / 16 * 16 + x % 16 = x := by omega
    have h2 : y / 16 * 16 + y % 16 = y := by omega
    rw [h1, h2, if_pos ⟨hx, hy⟩]
  · rintro ⟨⟨bx, by1⟩, ⟨tx, ty⟩⟩ ⟨hg, hw⟩
    simp only [inGrid, dimGrid, dimBlock, BLOCK_SIZE] at hg
    simp only [writeIndex, dimBlock, BLOCK_SIZE] at hw
    by_cases hb : bx * 16 + tx < w ∧ by1 * 16 + ty < h
    · rw [if_pos hb] at hw
      have h3 := index_inj w _ _ _ _ hb.1 hx (Option.some.inj hw)
      have h4 : bx = x / 16 := by omega
      have h5 : tx = x % 16 := by omega
      have h6 : by1 = y / 16 := by omega
      have h7 : ty = y % 16 := by omega
      subst h4 h5 h6 h7
      rfl
    · rw [if_neg hb] at hw
      exact absurd hw (by simp)


end cudac

/-! ## Lemmas: binary64 rounding and the luminance -/

/-- The bit length brackets its argument between two powers of two. -/
theorem bitLengthAux_bounds (fuel : Nat) :
    ∀ n, n ≤ fuel → n ≠ 0 → 2 ^ (bitLengthAux fuel n - 1) ≤ n ∧ n < 2 ^ bitLengthAux fuel n := by
  induction fuel with
  | zero => intro n h1 h2; omega
  | succ fuel ih =>
    intro n h1 h2
    rw [bitLengthAux, if_neg h2]
    by_cases h3 : n / 2 = 0
    · have h4 : n = 1 := by omega
      have h5 : bitLengthAux fuel (n / 2) = 0 := by
        rw [h3]
        cases fuel with
        | zero => rfl
        | succ f => simp [bitLengthAux]
      rw [h5, h4]
      decide
    · obtain ⟨h5, h6⟩ := ih (n / 2) (by omega) h3
      have h7 : 1 ≤ bitLengthAux fuel (n / 2) := by
        rcases Nat.eq_zero_or_pos (bitLengthAux fuel (n / 2)) with h8 | h8
        · rw [h8] at h6
          simp at h6
          exact absurd h6 h3
        · exact h8
      have h9 : 2 ^ bitLengthAux fuel (n / 2) = 2 * 2 ^ (bitLengthAux fuel (n / 2) - 1) := by
        conv_lhs => rw [show bitLengthAux fuel (n / 2) = (bitLengthAux fuel (n / 2) - 1) + 1 by omega]
        rw [Nat.pow_succ, Nat.mul_comm]
      constructor
      · rw [Nat.add_sub_cancel, h9]
        omega
      · rw [Nat.pow_succ]
        omega

theorem bitLength_bounds (n : Nat) (hn : n ≠ 0) :
    2 ^ (bitLength n - 1) ≤ n ∧ n < 2 ^ bitLength n :=
  bitLengthAux_bounds n n (le_refl n) hn

/-- Nearest-even rounding of `m` to a multiple of `2 ^ k` is off by at most half a unit. -/
theorem round_step (m k : Nat) (hk : 1 ≤ k) :
    (if 2 ^ (k - 1) < m % 2 ^ k ∨ (m % 2 ^ k = 2 ^ (k - 1) ∧ m / 2 ^ k % 2 = 1) then m / 2 ^ k + 1
      else m / 2 ^ k) * 2 ^ k ≤ m + 2 ^ (k - 1) ∧
    m ≤ (if 2 ^ (k - 1) < m % 2 ^ k ∨ (m % 2 ^ k = 2 ^ (k - 1) ∧ m / 2 ^ k % 2 = 1) then
      m / 2 ^ k + 1 else m / 2 ^ k) * 2 ^ k + 2 ^ (k - 1) := by
  have h1 : 2 ^ k = 2 * 2 ^ (k - 1) := by
    conv_lhs => rw [show k = (k - 1) + 1 by omega]
    rw [Nat.pow_succ, Nat.mul_comm]
  have h2 := Nat.div_add_mod m (2 ^ k)
  have h3 := Nat.mod_lt m (Nat.pos_pow_of_pos k (by decide : 0 < 2))
  generalize m % 2 ^ k = rem at h2 h3 ⊢
  generalize m / 2 ^ k = q at h2 ⊢
  generalize 2 ^ (k - 1) = half at h1 ⊢
  generalize 2 ^ k = P at h1 h2 h3 ⊢
  subst h1
  by_cases hc : half < rem ∨ (rem = half ∧ q % 2 = 1)
  · rw [if_pos hc]
    have h5 : (q + 1) * (2 * half) = 2 * half * q + 2 * half := by ring
    rw [h5]
    omega
  · rw [if_neg hc]
    have h5 : q * (2 * half) = 2 * half * q := by ring
    rw [h5]
    omega


/-- Rounding to binary64 has relative error at most `2 ^ (-53)`. -/
theorem round_val (m s : Nat) :
    (m : ℚ) / 2 ^ s * (1 - 1 / 2 ^ 53) ≤ (Double.round m s).val ∧
    (Double.round m s).val ≤ (m : ℚ) / 2 ^ s * (1 + 1 / 2 ^ 53) := by
  have hpos : (0 : ℚ) < 2 ^ s := by positivity
  have hm0 : (0 : ℚ) ≤ (m : ℚ) / 2 ^ s := by positivity
  unfold Double.round
  by_cases hm : m < 2 ^ 53
  · rw [if_pos hm]
    simp only [Double.val]
    constructor
    · nlinarith
    · nlinarith
  · rw [if_neg hm]
    have hm1 : m ≠ 0 := by
      intro h0
      rw [h0] at hm
      exact hm (by positivity)
    obtain ⟨hb1, hb2⟩ := bitLength_bounds m hm1
    have hbl : 53 < bitLength m := by
      by_contra hcon
      have : 2 ^ bitLength m ≤ 2 ^ 53 := Nat.pow_le_pow_right (by decide) (by omega)
      omega
    have hk : 1 ≤ bitLength m - 53 := by omega
    obtain ⟨hr1, hr2⟩ := round_step m (bitLength m - 53) hk
    have hhalf : 2 ^ (bitLength m - 53 - 1) * 2 ^ 53 ≤ m := by
      rw [← Nat.pow_add]
      have : bitLength m - 53 - 1 + 53 = bitLength m - 1 := by omega
      rw [this]
      exact hb1
    simp only [Double.val]
    generalize bitLength m - 53 = k at hk hr1 hr2 hhalf ⊢
    generalize hq : (if 2 ^ (k - 1) < m % 2 ^ k ∨ (m % 2 ^ k = 2 ^ (k - 1) ∧ m / 2 ^ k % 2 = 1)
      then m / 2 ^ k + 1 else m / 2 ^ k) = q1 at hr1 hr2 ⊢
    have hval : ((q1 * 2 ^ (k - s) : Nat) : ℚ) / 2 ^ (s - k) = ((q1 * 2 ^ k : Nat) : ℚ) / 2 ^ s := by
      have hnat : 2 ^ (k - s) * 2 ^ s = 2 ^ k * 2 ^ (s - k) := by
        rw [← Nat.pow_add, ← Nat.pow_add]
        congr 1
        omega
      have hq2 : ((2 : ℚ) ^ (k - s)) * 2 ^ s = 2 ^ k * 2 ^ (s - k) := by
        exact_mod_cast hnat
      have hp2 : (0 : ℚ) < 2 ^ (s - k) := by positivity
      rw [div_eq_div_iff (ne_of_gt hp2) (ne_of_gt hpos)]
      push_cast
      calc (q1 : ℚ) * 2 ^ (k - s) * 2 ^ s = q1 * (2 ^ (k - s) * 2 ^ s) := by ring
        _ = q1 * (2 ^ k * 2 ^ (s - k)) := by rw [hq2]
        _ = q1 * 2 ^ k * 2 ^ (s - k) := by ring
    rw [hval]
    have hr1q : ((q1 * 2 ^ k : Nat) : ℚ) ≤ (m : ℚ) + ((2 ^ (k - 1) : Nat) : ℚ) := by
      exact_mod_cast hr1
    have hr2q : (m : ℚ) ≤ ((q1 * 2 ^ k : Nat) : ℚ) + ((2 ^ (k - 1) : Nat) : ℚ) := by
      exact_mod_cast hr2
    have hhq : ((2 ^ (k - 1) : Nat) : ℚ) * 2 ^ 53 ≤ (m : ℚ) := by
      exact_mod_cast hhalf
    generalize ((q1 * 2 ^ k : Nat) : ℚ) = Q at hr1q hr2q ⊢
    generalize ((2 ^ (k - 1) : Nat) : ℚ) = H at hr1q hr2q hhq
    constructor
    · rw [div_mul_eq_mul_div]
      apply div_le_div_of_nonneg_right _ (le_of_lt hpos)
      norm_num at hhq ⊢
      linarith
    · rw [div_mul_eq_mul_div]
      apply div_le_div_of_nonneg_right _ (le_of_lt hpos)
      norm_num at hhq ⊢
      linarith

theorem mul_val (a b : Double) :
    a.val * b.val * (1 - 1 / 2 ^ 53) ≤ (a * b).val ∧
    (a * b).val ≤ a.val * b.val * (1 + 1 / 2 ^ 53) := by
  have h := round_val (a.m * b.m) (a.s + b.s)
  have he : ((a.m * b.m : Nat) : ℚ) / 2 ^ (a.s + b.s) = a.val * b.val := by
    simp only [Double.val]
    push_cast
    rw [pow_add]
    field_simp
  rw [he] at h
  exact h

theorem add_val (a b : Double) :
    (a.val + b.val) * (1 - 1 / 2 ^ 53) ≤ (a + b).val ∧
    (a + b).val ≤ (a.val + b.val) * (1 + 1 / 2 ^ 53) := by
  have h := round_val (a.m * 2 ^ (max a.s b.s - a.s) + b.m * 2 ^ (max a.s b.s - b.s)) (max a.s b.s)
  have he : ((a.m * 2 ^ (max a.s b.s - a.s) + b.m * 2 ^ (max a.s b.s - b.s) : Nat) : ℚ) /
      2 ^ (max a.s b.s) = a.val + b.val := by
    simp only [Double.val]
    have h1 : (2 : ℚ) ^ (max a.s b.s) = 2 ^ (max a.s b.s - a.s) * 2 ^ a.s := by
      rw [← pow_add]; congr 1; omega
    have h2 : (2 : ℚ) ^ (max a.s b.s) = 2 ^ (max a.s b.s - b.s) * 2 ^ b.s := by
      rw [← pow_add]; congr 1; omega
    push_cast
    rw [add_div]
    congr 1
    · rw [h1]; field_simp; ring
    · rw [h2]; field_simp; ring
  rw [he] at h
  exact h

theorem trunc_eq (a : Double) (q : Nat) (h1 : (q : ℚ) ≤ a.val) (h2 : a.val < (q : ℚ) + 1) :
    a.trunc = q := by
  have hpos : (0 : ℚ) < 2 ^ a.s := by positivity
  simp only [Double.val] at h1 h2
  rw [le_div_iff₀ hpos] at h1
  rw [div_lt_iff₀ hpos] at h2
  have h3 : q * 2 ^ a.s ≤ a.m := by exact_mod_cast h1
  have h4 : a.m < (q + 1) * 2 ^ a.s := by exact_mod_cast h2
  unfold Double.trunc
  apply Nat.div_eq_of_lt_le h3 h4

/-- Two-sided bound on the computed luminance, linear in the three channels. -/
theorem luminance_val (r g b : Nat) :
    (((lit_0_3.val * r * (1 - 1 / 2 ^ 53) + lit_0_59.val * g * (1 - 1 / 2 ^ 53)) *
        (1 - 1 / 2 ^ 53) + lit_0_11.val * b * (1 - 1 / 2 ^ 53)) * (1 - 1 / 2 ^ 53) ≤
      (luminance r g b).val) ∧
    ((luminance r g b).val ≤
      ((lit_0_3.val * r * (1 + 1 / 2 ^ 53) + lit_0_59.val * g * (1 + 1 / 2 ^ 53)) *
        (1 + 1 / 2 ^ 53) + lit_0_11.val * b * (1 + 1 / 2 ^ 53)) * (1 + 1 / 2 ^ 53)) := by
  have hr : (Double.ofUint8 r).val = r := by simp [Double.val, Double.ofUint8]
  have hg : (Double.ofUint8 g).val = g := by simp [Double.val, Double.ofUint8]
  have hb : (Double.ofUint8 b).val = b := by simp [Double.val, Double.ofUint8]
  have h1 := mul_val lit_0_3 (Double.ofUint8 r)
  have h2 := mul_val lit_0_59 (Double.ofUint8 g)
  have h3 := mul_val lit_0_11 (Double.ofUint8 b)
  have h4 := add_val (lit_0_3 * Double.ofUint8 r) (lit_0_59 * Double.ofUint8 g)
  have h5 := add_val (lit_0_3 * Double.ofUint8 r + lit_0_59 * Double.ofUint8 g)
    (lit_0_11 * Double.ofUint8 b)
  rw [hr] at h1
  rw [hg] at h2
  rw [hb] at h3
  unfold luminance
  generalize (lit_0_3 * Double.ofUint8 r + lit_0_59 * Double.ofUint8 g +
    lit_0_11 * Double.ofUint8 b).val = S at h5 ⊢
  generalize (lit_0_3 * Double.ofUint8 r + lit_0_59 * Double.ofUint8 g).val = s1 at h4 h5 ⊢
  generalize (lit_0_3 * Double.ofUint8 r).val = p1 at h1 h4 ⊢
  generalize (lit_0_59 * Double.ofUint8 g).val = p2 at h2 h4 ⊢
  generalize (lit_0_11 * Double.ofUint8 b).val = p3 at h3 h5 ⊢
  have hu1 : (0 : ℚ) ≤ 1 - 1 / 2 ^ 53 := by norm_num
  have hu2 : (0 : ℚ) ≤ 1 + 1 / 2 ^ 53 := by norm_num
  constructor
  · calc _ ≤ ((p1 + p2) * (1 - 1 / 2 ^ 53) + p3) * (1 - 1 / 2 ^ 53) := by
          apply mul_le_mul_of_nonneg_right _ hu1
          have := mul_le_mul_of_nonneg_right (add_le_add h1.1 h2.1) hu1
          linarith [h3.1]
      _ ≤ (s1 + p3) * (1 - 1 / 2 ^ 53) := by
          apply mul_le_mul_of_nonneg_right _ hu1
          linarith [h4.1]
      _ ≤ S := h5.1
  · calc S ≤ (s1 + p3) * (1 + 1 / 2 ^ 53) := h5.2
      _ ≤ ((p1 + p2) * (1 + 1 / 2 ^ 53) + p3) * (1 + 1 / 2 ^ 53) := by
          apply mul_le_mul_of_nonneg_right _ hu2
          linarith [h4.2]
      _ ≤ _ := by
          apply mul_le_mul_of_nonneg_right _ hu2
          have := mul_le_mul_of_nonneg_right (add_le_add h1.2 h2.2) hu2
          linarith [h3.2]

/-- The computed luminance is within 1/1000 of the exact weighted sum. -/
theorem luminance_close (r g b : Nat) (hr : r ≤ 255) (hg : g ≤ 255) (hb : b ≤ 255) :
    ((30 * r + 59 * g + 11 * b : ℚ) / 100 - 1 / 1000 ≤ (luminance r g b).val) ∧
    ((luminance r g b).val ≤ (30 * r + 59 * g + 11 * b : ℚ) / 100 + 1 / 1000) := by
  obtain ⟨h1, h2⟩ := luminance_val r g b
  have hr0 : (0 : ℚ) ≤ r := Nat.cast_nonneg r
  have hg0 : (0 : ℚ) ≤ g := Nat.cast_nonneg g
  have hb0 : (0 : ℚ) ≤ b := Nat.cast_nonneg b
  have hr1 : (r : ℚ) ≤ 255 := by exact_mod_cast hr
  have hg1 : (g : ℚ) ≤ 255 := by exact_mod_cast hg
  have hb1 : (b : ℚ) ≤ 255 := by exact_mod_cast hb
  generalize (luminance r g b).val = S at h1 h2 ⊢
  simp only [Double.val, lit_0_3, lit_0_59, lit_0_11] at h1 h2
  norm_num at h1 h2
  constructor
  · linarith
  · linarith


theorem trunc_lt (a : Double) (n : Nat) (h : a.val < (n : ℚ)) : a.trunc < n := by
  have hpos : (0 : ℚ) < 2 ^ a.s := by positivity
  simp only [Double.val] at h
  rw [div_lt_iff₀ hpos] at h
  have h3 : a.m < n * 2 ^ a.s := by exact_mod_cast h
  unfold Double.trunc
  exact (Nat.div_lt_iff_lt_mul (Nat.pos_pow_of_pos a.s (by decide))).mpr h3

theorem le_trunc (a : Double) (n : Nat) (h : (n : ℚ) ≤ a.val) : n ≤ a.trunc := by
  have hpos : (0 : ℚ) < 2 ^ a.s := by positivity
  simp only [Double.val] at h
  rw [le_div_iff₀ hpos] at h
  have h3 : n * 2 ^ a.s ≤ a.m := by exact_mod_cast h
  unfold Double.trunc
  exact (Nat.le_div_iff_mul_le (Nat.pos_pow_of_pos a.s (by decide))).mpr h3

theorem trunc_le_255 (r g b : Nat) (hr : r ≤ 255) (hg : g ≤ 255) (hb : b ≤ 255) :
    (luminance r g b).trunc ≤ 255 := by
  have h := (luminance_close r g b hr hg hb).2
  have hr1 : (r : ℚ) ≤ 255 := by exact_mod_cast hr
  have hg1 : (g : ℚ) ≤ 255 := by exact_mod_cast hg
  have hb1 : (b : ℚ) ≤ 255 := by exact_mod_cast hb
  have h2 : (luminance r g b).val < ((256 : Nat) : ℚ) := by
    push_cast
    linarith
  have := trunc_lt _ _ h2
  omega

theorem gray_eq_trunc (r g b : Nat) (hr : r ≤ 255) (hg : g ≤ 255) (hb : b ≤ 255) :
    gray r g b = (luminance r g b).trunc := by
  unfold gray Double.toUint8
  have := trunc_le_255 r g b hr hg hb
  omega

/-- Off the whole numbers the computed gray byte is the floor of the exact weighted sum. -/
theorem gray_of_fraction (r g b : Nat) (hr : r ≤ 255) (hg : g ≤ 255) (hb : b ≤ 255)
    (hfrac : (30 * r + 59 * g + 11 * b) % 100 ≠ 0) : gray r g b = specGray r g b := by
  rw [gray_eq_trunc r g b hr hg hb]
  obtain ⟨h1, h2⟩ := luminance_close r g b hr hg hb
  unfold specGray
  have hdm := Nat.div_add_mod (30 * r + 59 * g + 11 * b) 100
  have hlt := Nat.mod_lt (30 * r + 59 * g + 11 * b) (by decide : 0 < 100)
  generalize (30 * r + 59 * g + 11 * b) % 100 = ρ at hfrac hdm hlt
  generalize hq : (30 * r + 59 * g + 11 * b) / 100 = q at hdm ⊢
  have hρ1 : (1 : ℚ) ≤ ρ := by
    have : 1 ≤ ρ := Nat.one_le_iff_ne_zero.mpr hfrac
    exact_mod_cast this
  have hρ2 : (ρ : ℚ) ≤ 99 := by
    have : ρ ≤ 99 := by omega
    exact_mod_cast this
  have hN : (30 * r + 59 * g + 11 * b : ℚ) = 100 * q + ρ := by
    exact_mod_cast hdm.symm
  rw [hN] at h1 h2
  apply trunc_eq
  · linarith
  · linarith

/-- On a gray pixel `(v, v, v)` the computed gray byte is below the threshold exactly when
`v` is at most 128. -/
theorem gray_uniform (v : Nat) (hv : v ≤ 255) : gray v v v < THRESHOLD_VALUE ↔ v ≤ 128 := by
  unfold THRESHOLD_VALUE
  by_cases h128 : v = 128
  · subst h128
    decide
  · rw [gray_eq_trunc v v v hv hv hv]
    obtain ⟨h1, h2⟩ := luminance_close v v v hv hv hv
    have hsum : (30 * v + 59 * v + 11 * v : ℚ) / 100 = v := by ring
    rw [hsum] at h1 h2
    constructor
    · intro hlt
      by_contra hcon
      have h129 : 129 ≤ v := by omega
      have hq : ((129 : Nat) : ℚ) ≤ v := by exact_mod_cast h129
      have : 128 ≤ (luminance v v v).trunc := by
        apply le_trunc
        push_cast at hq ⊢
        linarith
      omega
    · intro hle
      have h127 : v ≤ 127 := by omega
      have hq : (v : ℚ) ≤ ((127 : Nat) : ℚ) := by exact_mod_cast h127
      apply trunc_lt
      push_cast at hq ⊢
      linarith

set_option maxRecDepth 100000

/-! ## Sanity of the binary64 literals -/

/-- The three literals are normalised 53-bit significands within half a unit in the last
place of 3/10, 59/100 and 11/100: they are the binary64 values a C compiler produces. -/
theorem literals_nearest :
    (2 ^ 52 ≤ lit_0_3.m ∧ lit_0_3.m < 2 ^ 53 ∧
      3 * 2 ^ 54 ≤ 10 * lit_0_3.m + 5 ∧ 10 * lit_0_3.m ≤ 3 * 2 ^ 54 + 5) ∧
    (2 ^ 52 ≤ lit_0_59.m ∧ lit_0_59.m < 2 ^ 53 ∧
      59 * 2 ^ 53 ≤ 100 * lit_0_59.m + 50 ∧ 100 * lit_0_59.m ≤ 59 * 2 ^ 53 + 50) ∧
    (2 ^ 52 ≤ lit_0_11.m ∧ lit_0_11.m < 2 ^ 53 ∧
      11 * 2 ^ 56 ≤ 100 * lit_0_11.m + 50 ∧ 100 * lit_0_11.m ≤ 11 * 2 ^ 56 + 50) := by
  decide

/-- The intermediate binary64 values of `0.3 * 128 + 0.59 * 128 + 0.11 * 128`: the products
are 38.4, 75.52 and 14.08 rounded down, down and up, the first sum is
113.91999999999998749..., and the total is `(2^53 - 1) / 2^46 = 127.99999999999998579...`,
one unit in the last place below 128. -/
theorem luminance_128 :
    (lit_0_3 * Double.ofUint8 128).m = 5404319552844595 ∧ (lit_0_3 * Double.ofUint8 128).s = 47 ∧
    (lit_0_59 * Double.ofUint8 128).m = 5314247560297185 ∧
      (lit_0_59 * Double.ofUint8 128).s = 46 ∧
    (lit_0_11 * Double.ofUint8 128).m = 7926335344172073 ∧
      (lit_0_11 * Double.ofUint8 128).s = 49 ∧
    (luminance 128 128 128).m = 2 ^ 53 - 1 ∧ (luminance 128 128 128).s = 46 ∧
    (luminance 128 128 128).trunc = 127 := by
  decide


/-- The pitch SDL computes is a multiple of four and holds a whole row of pixels. -/
theorem SDL_CalculatePitch_spec (format : SDL_PixelFormat) (width : Nat) :
    4 ∣ SDL_CalculatePitch format width ∧
      width * format.BytesPerPixel ≤ SDL_CalculatePitch format width := by
  unfold SDL_CalculatePitch
  constructor
  · exact Dvd.intro_left _ rfl
  · omega

/-- Every pixel of a uniform 4-byte surface is the opaque ARGB word of its gray value. -/
theorem uniformSurface_pixel (w h v : Nat) (y x : Nat) :
    pixelAt (uniformSurface w h v) (uniformSurface w h v).pixels y x =
      SDL_MapRGB .ARGB8888 v v v := by
  have hb : (uniformSurface w h v).format.BytesPerPixel = 4 := rfl
  rw [pixelAt_word (uniformSurface w h v) hb w rfl, load32_eq]
  simp only [uniformSurface]
  have h0 : ¬ (4 * (y * w + x)) % 4 = 3 := by omega
  have h1 : ¬ (4 * (y * w + x) + 1) % 4 = 3 := by omega
  have h2 : ¬ (4 * (y * w + x) + 2) % 4 = 3 := by omega
  have h3 : (4 * (y * w + x) + 3) % 4 = 3 := by omega
  rw [if_neg h0, if_neg h1, if_neg h2, if_pos h3]
  simp only [SDL_MapRGB, SDL_PixelFormat.Rshift, SDL_PixelFormat.Gshift,
    SDL_PixelFormat.Bshift, SDL_PixelFormat.Amask]
  omega

/-- The opaque ARGB word of gray 200 decodes to (200,200,200). -/
theorem getRGB_mapRGB_gray200 :
    SDL_GetRGB (SDL_MapRGB .ARGB8888 200 200 200) .ARGB8888 = (200, 200, 200) := by
  decide

/-- C2, refuted as stated, twice.  The 1 x 1 image with 4 bytes per pixel whose pixel is the
gray (128,128,128) has exact luminance 128, yet the loop of `Seq.c` computes gray 127 and
writes black, not white.  And on the 4 x 3 surface with 3 bytes per pixel, every pixel the
gray (200,200,200), the loop leaves pixel (0, 1) cyan: the output is not entirely white. -/
theorem C2_uniform_128_is_black :
    (SDL_GetRGB (pixelAt (uniformSurface 1 1 128) (uniformSurface 1 1 128).pixels 0 0)
        (uniformSurface 1 1 128).format = (128, 128, 128) ∧
      gray 128 128 128 = 127 ∧
      isBlack (uniformSurface 1 1 128).format
        (pixelAt (uniformSurface 1 1 128) (Seq.transformLoop (uniformSurface 1 1 128)) 0 0) ∧
      ¬ isWhite (uniformSurface 1 1 128).format
        (pixelAt (uniformSurface 1 1 128) (Seq.transformLoop (uniformSurface 1 1 128)) 0 0)) ∧
    ((∀ y, y < rgb24Surface.h → ∀ x, x < rgb24Surface.w →
        SDL_GetRGB (pixelAt rgb24Surface rgb24Surface.pixels y x) rgb24Surface.format =
          (200, 200, 200)) ∧
      ¬ isWhite rgb24Surface.format
        (pixelAt rgb24Surface (Seq.transformLoop rgb24Surface) 0 1)) := by
  decide

/-- C2, amended. For an image held in a surface with 4 bytes per pixel (pitch a multiple of
four) whose pixels all decode to the same gray (v,v,v), v at most 255, the loop of `Seq.c`
gives an entirely white output when v is at least 129 and an entirely black output when v
is at most 128; gray 200 gives all white, gray 50 all black; and any pixel whose computed
gray byte is at least 128 (so also exactly 128) is written white. -/
theorem C2_uniform_gray_threshold (s : SDL_Surface) (hb : s.format.BytesPerPixel = 4)
    (hal : 4 ∣ s.pitch) (v : Nat) (hv : v ≤ 255)
    (huni : ∀ y x, y < s.h → x < s.w →
      SDL_GetRGB (pixelAt s s.pixels y x) s.format = (v, v, v)) :
    (129 ≤ v → ∀ y x, y < s.h → x < s.w →
      isWhite s.format (pixelAt s (Seq.transformLoop s) y x)) ∧
    (v ≤ 128 → ∀ y x, y < s.h → x < s.w →
      isBlack s.format (pixelAt s (Seq.transformLoop s) y x)) ∧
    (v = 200 → ∀ y x, y < s.h → x < s.w →
      isWhite s.format (pixelAt s (Seq.transformLoop s) y x)) ∧
    (v = 50 → ∀ y x, y < s.h → x < s.w →
      isBlack s.format (pixelAt s (Seq.transformLoop s) y x)) ∧
    (∀ pixel, THRESHOLD_VALUE ≤
        gray (SDL_GetRGB pixel s.format).1 (SDL_GetRGB pixel s.format).2.1
          (SDL_GetRGB pixel s.format).2.2 →
      isWhite s.format (thresholdPixel s.format pixel)) := by
  obtain ⟨P, hP⟩ := hal
  have hf : s.format.BytesPerPixel ≠ 1 := by rw [hb]; decide
  have hwhite : 129 ≤ v → ∀ y x, y < s.h → x < s.w →
      isWhite s.format (pixelAt s (Seq.transformLoop s) y x) := by
    intro h129 y x hy hx
    rw [Seq_pixel s hb P hP y x hy hx]
    unfold thresholdPixel
    simp only [huni y x hy hx]
    have hn : ¬ gray v v v < THRESHOLD_VALUE := by
      rw [gray_uniform v hv]
      omega
    rw [if_neg hn]
    exact getRGB_mapRGB_white s.format hf
  have hblack : v ≤ 128 → ∀ y x, y < s.h → x < s.w →
      isBlack s.format (pixelAt s (Seq.transformLoop s) y x) := by
    intro h128 y x hy hx
    rw [Seq_pixel s hb P hP y x hy hx]
    unfold thresholdPixel
    simp only [huni y x hy hx]
    rw [if_pos ((gray_uniform v hv).mpr h128)]
    exact getRGB_mapRGB_black s.format hf
  refine ⟨hwhite, hblack, fun h => hwhite (by omega), fun h => hblack (by omega), ?_⟩
  intro pixel hp
  unfold thresholdPixel
  simp only []
  rw [if_neg (Nat.not_lt.mpr hp)]
  exact getRGB_mapRGB_white s.format hf

/-- Witness of C2 (amended) on the 640 x 480 image of uniform gray 200. -/
theorem C2_uniform_gray_threshold_witness :
    ((uniformSurface 640 480 200).format.BytesPerPixel = 4 ∧
      4 ∣ (uniformSurface 640 480 200).pitch ∧ 200 ≤ 255 ∧
      ∀ y x, y < (uniformSurface 640 480 200).h → x < (uniformSurface 640 480 200).w →
        SDL_GetRGB (pixelAt (uniformSurface 640 480 200) (uniformSurface 640 480 200).pixels y x)
          (uniformSurface 640 480 200).format = (200, 200, 200)) ∧
    (∀ y x, y < (uniformSurface 640 480 200).h → x < (uniformSurface 640 480 200).w →
      isWhite (uniformSurface 640 480 200).format
        (pixelAt (uniformSurface 640 480 200)
          (Seq.transformLoop (uniformSurface 640 480 200)) y x)) :=
  have huni : ∀ y x, y < (uniformSurface 640 480 200).h → x < (uniformSurface 640 480 200).w →
      SDL_GetRGB (pixelAt (uniformSurface 640 480 200) (uniformSurface 640 480 200).pixels y x)
        (uniformSurface 640 480 200).format = (200, 200, 200) := fun y x _ _ => by
    rw [uniformSurface_pixel 640 480 200 y x]
    exact getRGB_mapRGB_gray200
  ⟨⟨by decide, by decide, by decide, huni⟩,
    (C2_uniform_gray_threshold (uniformSurface 640 480 200) (by decide) (by decide) 200
      (by decide) huni).1 (by decide)⟩

/-- C3. For every height h and worker count n with 1 <= n <= h, the row ranges
[start_row, end_row) of ranks 0..n-1 in `mpi.c` start at row 0, end at row h, are contiguous,
non-empty and pairwise non-overlapping, and every row below h lies in exactly one of them. -/
theorem C3_row_partition_cover (h n : Nat) (hn : 1 ≤ n) (hnh : n ≤ h) :
    mpi.start_row h n 0 = 0 ∧ mpi.end_row h n (n - 1) = h ∧
    (∀ k, k + 1 < n → mpi.end_row h n k = mpi.start_row h n (k + 1)) ∧
    (∀ k, k < n → mpi.start_row h n k < mpi.end_row h n k) ∧
    (∀ j k, j < k → k < n → mpi.end_row h n j ≤ mpi.start_row h n k) ∧
    (∀ y, y < h → ∃! k, k < n ∧ mpi.start_row h n k ≤ y ∧ y < mpi.end_row h n k) := by
  refine ⟨mpi.start_row_zero h n, mpi.end_row_last h n, ?_, ?_, ?_, ?_⟩
  · intro k hk
    exact mpi.end_row_succ h n k hk
  · intro k hk
    have hr : 0 < h / n := Nat.div_pos hnh (by omega)
    by_cases h1 : k = n - 1
    · rw [h1, mpi.end_row_last]
      simp only [mpi.start_row, mpi.rows_per_process]
      have h2 := mpi.pred_mul_add n (h / n) hn
      have h3 := Nat.mul_div_le h n
      omega
    · simp only [mpi.end_row, if_neg h1, mpi.rows_per_process]
      omega
  · intro j k hjk hk
    exact mpi.end_le_start h n j k hjk hk
  · intro y hy
    obtain ⟨k, hk, hk1⟩ := mpi.row_owner_exists h n y hn hy
    exact ⟨k, ⟨hk, hk1⟩, fun j hj => mpi.row_owner_unique h n y j k hj.1 hk hj.2 hk1⟩

/-- Witness of C3 for 480 rows and 7 workers. -/
theorem C3_row_partition_cover_witness :
    (1 ≤ 7 ∧ 7 ≤ 480) ∧
    (mpi.start_row 480 7 0 = 0 ∧ mpi.end_row 480 7 (7 - 1) = 480 ∧
    (∀ k, k + 1 < 7 → mpi.end_row 480 7 k = mpi.start_row 480 7 (k + 1)) ∧
    (∀ k, k < 7 → mpi.start_row 480 7 k < mpi.end_row 480 7 k) ∧
    (∀ j k, j < k → k < 7 → mpi.end_row 480 7 j ≤ mpi.start_row 480 7 k) ∧
    (∀ y, y < 480 → ∃! k, k < 7 ∧ mpi.start_row 480 7 k ≤ y ∧ y < mpi.end_row 480 7 k)) :=
  ⟨⟨by decide, by decide⟩, C3_row_partition_cover 480 7 (by decide) (by decide)⟩

/-- C4. For every width w and height h, with 16 x 16 blocks and the rounded-up grid of
`cudac.c`, every pixel (x, y) of the image is stored to by exactly one thread of the grid:
exactly one thread passes the bounds check with those coordinates and writes index
y * w + x.  A thread that fails the bounds check leaves the image unchanged, and a thread
that passes it changes nothing but its own cell. -/
theorem C4_grid_cover (w h x y : Nat) (hx : x < w) (hy : y < h) :
    (∃! t : cudac.Thread, cudac.inGrid (cudac.dimGrid w h) cudac.dimBlock t ∧
      cudac.writeIndex cudac.dimBlock t w h = some (y * w + x)) ∧
    (∀ (t : cudac.Thread) (image : Nat → Nat),
      cudac.writeIndex cudac.dimBlock t w h = none →
      cudac.thresholdImageKernel t.blockIdx cudac.dimBlock t.threadIdx image w h = image) ∧
    (∀ (t : cudac.Thread) (image : Nat → Nat) (i : Nat),
      cudac.writeIndex cudac.dimBlock t w h = some i →
      cudac.thresholdImageKernel t.blockIdx cudac.dimBlock t.threadIdx image w h =
        Function.update image i (if image i < THRESHOLD_VALUE then 0 else 255)) := by
  refine ⟨cudac.grid_cover_aux w h x y hx hy, ?_, ?_⟩
  · intro t image hnone
    exact cudac.kernel_of_none t cudac.dimBlock image w h hnone
  · intro t image i hsome
    funext j
    rw [cudac.kernel_apply, hsome]
    by_cases hj : j = i
    · rw [hj, if_pos rfl, Function.update_same]
    · rw [if_neg (fun h1 => hj (Option.some.inj h1).symm), Function.update_noteq hj]

/-- Witness of C4 for the pixel (639, 479) of a 640 x 480 image. -/
theorem C4_grid_cover_witness :
    (639 < 640 ∧ 479 < 480) ∧
    (∃! t : cudac.Thread, cudac.inGrid (cudac.dimGrid 640 480) cudac.dimBlock t ∧
      cudac.writeIndex cudac.dimBlock t 640 480 = some (479 * 640 + 639)) :=
  ⟨⟨by decide, by decide⟩, (C4_grid_cover 640 480 639 479 (by decide) (by decide)).1⟩

/-- C7. In each of the three programs, for every argument count other than 2, `main` does
nothing but print the usage message and returns EXIT_FAILURE (which is not EXIT_SUCCESS):
no subsystem is set up, no image is loaded or produced, no message is sent. -/
theorem C7_usage_on_bad_argc (argc : Int) (hargc : argc ≠ 2) (env : Env) (rank num_procs : Nat)
    (inbox : Nat → mpi.Message) (hostImage : Nat → Nat) :
    ((Seq.main argc env).trace = [Event.usage] ∧ (Seq.main argc env).exit = EXIT_FAILURE ∧
      (Seq.main argc env).exit ≠ EXIT_SUCCESS ∧ (Seq.main argc env).image = none) ∧
    ((mpi.main argc env rank num_procs inbox).1.trace = [Event.usage] ∧
      (mpi.main argc env rank num_procs inbox).1.exit = EXIT_FAILURE ∧
      (mpi.main argc env rank num_procs inbox).1.exit ≠ EXIT_SUCCESS ∧
      (mpi.main argc env rank num_procs inbox).1.image = none ∧
      (mpi.main argc env rank num_procs inbox).2 = none) ∧
    ((cudac.main argc env hostImage).trace = [Event.usage] ∧
      (cudac.main argc env hostImage).exit = EXIT_FAILURE ∧
      (cudac.main argc env hostImage).exit ≠ EXIT_SUCCESS ∧
      (cudac.main argc env hostImage).hostImage = none) := by
  simp [Seq.main, mpi.main, cudac.main, hargc, EXIT_FAILURE, EXIT_SUCCESS]

/-- Witness of C7 for a run without arguments (argc = 1) in a working environment. -/
theorem C7_usage_on_bad_argc_witness :
    (1 : Int) ≠ 2 ∧
    (Seq.main 1 (goodEnv sampleSurface)).exit = EXIT_FAILURE ∧
    (mpi.main 1 (goodEnv sampleSurface) 0 2 (mpi.messageOf sampleSurface 2)).1.exit =
      EXIT_FAILURE ∧
    (cudac.main 1 (goodEnv sampleSurface) (fun _ => 0)).exit = EXIT_FAILURE :=
  have h := C7_usage_on_bad_argc 1 (by decide) (goodEnv sampleSurface) 0 2
    (mpi.messageOf sampleSurface 2) (fun _ => 0)
  ⟨by decide, h.1.2.1, h.2.1.2.1, h.2.2.2.1⟩

/-- C8. For every height h and worker count n >= 1 of `mpi.c`, every rank other than the
last is assigned exactly h / n rows, the last rank n - 1 exactly h / n + h mod n rows, and
the assigned row counts of ranks 0..n-1 sum to h. -/
theorem C8_partition_row_counts (h n : Nat) (hn : 1 ≤ n) :
    (∀ k, k + 1 < n → mpi.end_row h n k - mpi.start_row h n k = h / n) ∧
    mpi.end_row h n (n - 1) - mpi.start_row h n (n - 1) = h / n + h % n ∧
    ((List.range n).map (fun k => mpi.end_row h n k - mpi.start_row h n k)).sum = h := by
  refine ⟨?_, mpi.last_count h n hn, ?_⟩
  · intro k hk
    rw [mpi.end_row_of_not_last h n k hk]
    simp only [mpi.start_row, mpi.rows_per_process]
    exact mpi.succ_mul_sub k (h / n)
  · have hsplit : List.range n = List.range (n - 1) ++ [n - 1] := by
      have hn1 : n = (n - 1) + 1 := by omega
      conv_lhs => rw [hn1]
      exact List.range_succ (n - 1)
    rw [hsplit, List.map_append, List.sum_append]
    simp only [List.map_cons, List.map_nil, List.sum_cons, List.sum_nil, add_zero]
    rw [mpi.rows_sum h n (n - 1) (by omega), mpi.last_count h n hn]
    have h1 := Nat.div_add_mod h n
    have h2 := mpi.pred_mul_add n (h / n) hn
    generalize h % n = t at h1 ⊢
    generalize h / n = r at h1 h2 ⊢
    omega

/-- Witness of C8 for 10 rows and 4 workers: 2, 2, 2 and 4 rows. -/
theorem C8_partition_row_counts_witness :
    1 ≤ 4 ∧
    mpi.end_row 10 4 (4 - 1) - mpi.start_row 10 4 (4 - 1) = 10 / 4 + 10 % 4 ∧
    ((List.range 4).map (fun k => mpi.end_row 10 4 k - mpi.start_row 10 4 k)).sum = 10 :=
  ⟨by decide, (C8_partition_row_counts 10 4 (by decide)).2⟩

/-- C10, refuted as stated: for (1,1,1) the exact weighted sum is 1 and its floor is 1, but
the program computes `0.3 + 0.59 + 0.11` in binary64, gets a value below 1 and stores 0. -/
theorem C10_gray_not_floor :
    specGray 1 1 1 = 1 ∧ gray 1 1 1 = 0 ∧ (luminance 1 1 1).m = 2 ^ 53 - 1 ∧
    (luminance 1 1 1).s = 53 ∧ gray 1 1 1 ≠ specGray 1 1 1 := by
  decide

/-- C10, amended. For every RGB triple in [0,255] the binary64 value of
`0.3 * r + 0.59 * g + 0.11 * b` has an integer part of at most 255, so the cast to an 8-bit
value never wraps: gray is that integer part; the floor of the exact weighted sum is at most
255 too, and gray equals it whenever the exact sum is not a whole number; gray is 0 for
(0,0,0) and 255 for (255,255,255). -/
theorem C10_gray_no_wrap (r g b : Nat) (hr : r ≤ 255) (hg : g ≤ 255) (hb : b ≤ 255) :
    (luminance r g b).trunc ≤ 255 ∧
    gray r g b = (luminance r g b).trunc ∧
    specGray r g b ≤ 255 ∧
    ((30 * r + 59 * g + 11 * b) % 100 ≠ 0 → gray r g b = specGray r g b) ∧
    gray 0 0 0 = 0 ∧ gray 255 255 255 = 255 := by
  refine ⟨trunc_le_255 r g b hr hg hb, gray_eq_trunc r g b hr hg hb, ?_,
    gray_of_fraction r g b hr hg hb, by decide, by decide⟩
  unfold specGray
  omega

/-- Witness of C10 (amended) at (200, 100, 50), exact sum 124.5. -/
theorem C10_gray_no_wrap_witness :
    (200 ≤ 255 ∧ 100 ≤ 255 ∧ 50 ≤ 255 ∧ (30 * 200 + 59 * 100 + 11 * 50) % 100 ≠ 0) ∧
    gray 200 100 50 = specGray 200 100 50 :=
  ⟨⟨by decide, by decide, by decide, by decide⟩,
    (C10_gray_no_wrap 200 100 50 (by decide) (by decide) (by decide)).2.2.2.1 (by decide)⟩

end ProjectParallel
